import Mathlib

/-!
Shallow embedding of the delta-hedging simulator
(`src/simulator.py` and `src/real_simulator.py`).

Real (`float`) arithmetic is modelled over `ℝ`.  `scipy.stats.norm.cdf` is
the standard normal cumulative distribution function, modelled as the
integral of the Gaussian density `ProbabilityTheory.gaussianPDFReal 0 1` over `Iic x` and
related to `ProbabilityTheory.cdf (ProbabilityTheory.gaussianReal 0 1)`.
-/

open MeasureTheory Set Filter
open scoped Topology

/-- `scipy.stats.norm.cdf`: the standard normal cumulative distribution
function `Φ`, as the integral of the standard Gaussian density. -/
noncomputable def normCDF (x : ℝ) : ℝ := ∫ t in Iic x, ProbabilityTheory.gaussianPDFReal 0 1 t

/-! ### Option Pricer (`black_scholes_call`, identical in both source files) -/

/-- `d1` from `black_scholes_call`:
`d1 = (np.log(S / K) + (r + 0.5 * sigma ** 2) * T) / (sigma * np.sqrt(T))`. -/
noncomputable def bs_d1 (S K T r sigma : ℝ) : ℝ :=
  (Real.log (S / K) + (r + 0.5 * sigma ^ 2) * T) / (sigma * Real.sqrt T)

/-- `d2 = d1 - sigma * np.sqrt(T)` from `black_scholes_call`. -/
noncomputable def bs_d2 (S K T r sigma : ℝ) : ℝ :=
  bs_d1 S K T r sigma - sigma * Real.sqrt T

/-- `black_scholes_call(S, K, T, r, sigma)` from `src/simulator.py`
(lines 35-45) and `src/real_simulator.py` (lines 27-35); both bodies compute
the same pair `(call_price, delta)`. -/
noncomputable def black_scholes_call (S K T r sigma : ℝ) : ℝ × ℝ :=
  if T ≤ 0 then (max (S - K) 0, if S > K then 1 else 0)
  else
    (S * normCDF (bs_d1 S K T r sigma)
        - K * Real.exp (-r * T) * normCDF (bs_d2 S K T r sigma),
      normCDF (bs_d1 S K T r sigma))

/-! ### Data model: pandas Series as aligned (index, values) lists -/

/-- A pandas `Series` of prices: a time index aligned with real values. -/
structure PriceSeries where
  index : List ℝ
  values : List ℝ

/-- Python exceptions that the modelled fragments can raise. -/
inductive PyError where
  /-- pandas `iloc` out-of-bounds positional indexing. -/
  | indexError : PyError
  /-- Python `ZeroDivisionError` (e.g. `1 / 0` on ints). -/
  | zeroDivisionError : PyError
  /-- The distinguished error the specification calls `EmptyInputError`;
  no code path of the repository ever constructs it. -/
  | emptyInputError : PyError
  deriving DecidableEq

/-- `np.linspace(a, b, n)`: `n` evenly spaced samples from `a` to `b`
(`n = 1` yields `[a]`, as numpy computes a zero step in that case). -/
noncomputable def linspace (a b : ℝ) (n : ℕ) : List ℝ :=
  (List.range n).map fun i => a + (b - a) * i / ((n : ℝ) - 1)

/-! ### Path Generator, normalization variant
(`normalize_price_series`, `src/real_simulator.py` lines 20-24) -/

/-- `normalize_price_series(price_series)`: rescale values by
`100 / first_value` and replace the index by `np.linspace(0, 1, len)`.
On an empty series, `price_series.iloc[0]` raises a pandas `IndexError`. -/
noncomputable def normalize_price_series (s : PriceSeries) :
    Except PyError PriceSeries :=
  match s.values with
  | [] => .error .indexError
  | v0 :: _ =>
      .ok ⟨linspace 0 1 s.values.length, s.values.map fun v => v / v0 * 100⟩

/-! ### Path Generator, stochastic variant
(`simulate_gbm`, `src/simulator.py` lines 13-27) -/

/-- Modelled from the spec: the process-wide numpy random generator, absent
from `src/` (it lives in the `numpy` library). It is modelled as the stream
of successive `np.random.normal()` draws it will produce. -/
structure RNG where
  draws : ℕ → ℝ

/-- Modelled from the spec: `np.random.seed(seed)` resets the global
generator to a stream fully determined by the seed ("same seed ⇒
byte-identical path"). -/
def seededRNG (seed : ℕ) : RNG :=
  ⟨fun i => (seed : ℝ) + i⟩

/-- The price recurrence of `simulate_gbm`:
`S_next = S_prev * np.exp((mu - 0.5 * sigma ** 2) * dt + sigma * np.sqrt(dt) * Z)`
with `Z` the `i`-th draw of the generator. -/
noncomputable def gbmPrice (S0 mu sigma dt : ℝ) (g : RNG) : ℕ → ℝ
  | 0 => S0
  | i + 1 =>
      gbmPrice S0 mu sigma dt g i *
        Real.exp ((mu - 0.5 * sigma ^ 2) * dt + sigma * Real.sqrt dt * g.draws i)

/-- `simulate_gbm(S0, mu, sigma, T, steps, seed)` from `src/simulator.py`.
The Python guard is `if seed: np.random.seed(seed)`, so the generator is
re-seeded only when `seed` is truthy (supplied and nonzero); otherwise the
ambient global generator `g` is consumed.  Returns the series
`pd.Series(prices, index=time_grid)`. -/
noncomputable def simulate_gbm (S0 mu sigma T : ℝ) (steps : ℕ)
    (seed : Option ℕ) (g : RNG) : PriceSeries :=
  let rng : RNG :=
    match seed with
    | some s => if s ≠ 0 then seededRNG s else g
    | none => g
  let dt := T / steps
  ⟨linspace 0 T (steps + 1),
    (List.range (steps + 1)).map (gbmPrice S0 mu sigma dt rng)⟩

/-! ### Hedging Engine
(`simulate_delta_hedging`, `src/simulator.py` lines 48-81 and
`src/real_simulator.py` lines 38-72; both loops perform the same
arithmetic) -/

/-- The cash/shares ledger carried across the walk. -/
structure Ledger where
  cash : ℝ
  shares : ℝ

/-- One iteration of the `for i in range(steps + 1)` loop body: given the
remaining time `Tr`, the spot `S` and the step number `i`, update the ledger
and emit the mark-to-market value and the quoted delta. -/
noncomputable def hedgeStep (K r sigma c : ℝ) (hedgeEvery : ℕ)
    (Tr S : ℝ) (i : ℕ) (st : Ledger) : Ledger × ℝ × ℝ :=
  let q := black_scholes_call S K Tr r sigma
  let st' : Ledger :=
    if i = 0 then
      { cash := q.1 - q.2 * S - |q.2 * S| * c, shares := q.2 }
    else if i % hedgeEvery = 0 then
      { cash := st.cash - ((q.2 - st.shares) * S + |(q.2 - st.shares) * S| * c),
        shares := q.2 }
    else st
  (st', st'.shares * S + st'.cash - q.1, q.2)

/-- The loop of `simulate_delta_hedging` over the listed step numbers,
threading the ledger and accumulating `portfolio_value` and `deltas`. -/
noncomputable def hedgeRun (K r sigma c : ℝ) (hedgeEvery : ℕ)
    (path : List ℝ) (dt : ℝ) : List ℕ → Ledger → List ℝ × List ℝ
  | [], _ => ([], [])
  | i :: rest, st =>
      let S := path.getD i 0
      let Tr := 1 - i * dt
      let out := hedgeStep K r sigma c hedgeEvery Tr S i st
      let tail := hedgeRun K r sigma c hedgeEvery path dt rest out.1
      (out.2.1 :: tail.1, out.2.2 :: tail.2)

/-- `simulate_delta_hedging(path, K, r, sigma, hedge_every, transaction_cost)`.
`steps = len(path) - 1` is Python integer arithmetic (modelled on `ℤ`), and
`dt = 1 / steps` raises `ZeroDivisionError` exactly when `steps == 0`,
i.e. for a one-sample path.  Returns the `(portfolio_value, deltas)` lists
(the returned pandas series reuse `path`'s index unchanged). -/
noncomputable def simulate_delta_hedging (path : List ℝ) (K r sigma : ℝ)
    (hedgeEvery : ℕ) (transaction_cost : ℝ) :
    Except PyError (List ℝ × List ℝ) :=
  let steps : ℤ := (path.length : ℤ) - 1
  if steps = 0 then .error .zeroDivisionError
  else
    let dt : ℝ := 1 / (steps : ℝ)
    .ok (hedgeRun K r sigma transaction_cost hedgeEvery path dt
      (List.range (steps + 1).toNat) ⟨0, 0⟩)

/-! ### Facts about the standard normal CDF -/

lemma normCDF_eq_cdf (x : ℝ) : normCDF x = ProbabilityTheory.cdf (ProbabilityTheory.gaussianReal 0 1) x := by
  rw [ProbabilityTheory.cdf_eq_toReal, ProbabilityTheory.gaussianReal_apply_eq_integral 0 one_ne_zero (Iic x),
    ENNReal.toReal_ofReal
      (setIntegral_nonneg measurableSet_Iic fun t _ => ProbabilityTheory.gaussianPDFReal_nonneg 0 1 t)]
  rfl

lemma normCDF_nonneg (x : ℝ) : 0 ≤ normCDF x := by
  rw [normCDF_eq_cdf]; exact ProbabilityTheory.cdf_nonneg _ x

lemma normCDF_le_one (x : ℝ) : normCDF x ≤ 1 := by
  rw [normCDF_eq_cdf]; exact ProbabilityTheory.cdf_le_one _ x

lemma normCDF_mono : Monotone normCDF := by
  have h : normCDF = ProbabilityTheory.cdf (ProbabilityTheory.gaussianReal 0 1) := funext normCDF_eq_cdf
  rw [h]; exact ProbabilityTheory.monotone_cdf _

lemma normCDF_tendsto_atBot : Tendsto normCDF atBot (𝓝 0) := by
  have h : normCDF = ProbabilityTheory.cdf (ProbabilityTheory.gaussianReal 0 1) := funext normCDF_eq_cdf
  rw [h]; exact ProbabilityTheory.tendsto_cdf_atBot _

lemma continuous_gaussianPDFReal : Continuous (ProbabilityTheory.gaussianPDFReal 0 1) := by
  rw [ProbabilityTheory.gaussianPDFReal_def]
  exact continuous_const.mul
    ((((continuous_id.sub continuous_const).pow 2).neg.div_const _).rexp)

/-- Fundamental theorem of calculus for the standard normal CDF: `Φ` has the
Gaussian density as derivative. -/
lemma hasDerivAt_normCDF (x : ℝ) :
    HasDerivAt normCDF (ProbabilityTheory.gaussianPDFReal 0 1 x) x := by
  have hint : Integrable (ProbabilityTheory.gaussianPDFReal 0 1) := ProbabilityTheory.integrable_gaussianPDFReal 0 1
  have hfun : normCDF = fun u => normCDF 0 + ∫ t in (0:ℝ)..u, ProbabilityTheory.gaussianPDFReal 0 1 t := by
    funext u
    rw [← intervalIntegral.integral_Iic_sub_Iic hint.integrableOn hint.integrableOn]
    unfold normCDF
    ring
  have h2 : HasDerivAt (fun u => ∫ t in (0:ℝ)..u, ProbabilityTheory.gaussianPDFReal 0 1 t)
      (ProbabilityTheory.gaussianPDFReal 0 1 x) x :=
    intervalIntegral.integral_hasDerivAt_right hint.intervalIntegrable
      (continuous_gaussianPDFReal.stronglyMeasurable.stronglyMeasurableAtFilter)
      continuous_gaussianPDFReal.continuousAt
  rw [hfun]
  exact h2.const_add (normCDF 0)

/-- The quoted hedge ratio lies in `[0, 1]` whichever branch is taken. -/
lemma bs_delta_mem_unitInterval (S K T r sigma : ℝ) :
    0 ≤ (black_scholes_call S K T r sigma).2 ∧
      (black_scholes_call S K T r sigma).2 ≤ 1 := by
  unfold black_scholes_call
  split
  · dsimp only
    split <;> norm_num
  · exact ⟨normCDF_nonneg _, normCDF_le_one _⟩

/-! ### Claims -/

/-- C1: for `S, K > 0`, `sigma ≥ 0`: if `T ≤ 0` the pricer returns the
intrinsic value `max (S-K) 0` with hedge ratio `1` iff `S > K`, and the
result involves no logarithm or division (it does not depend on `r` or
`sigma` at all); if `T > 0` (with `sigma * sqrt T ≠ 0`) it returns
`S·Φ(d1) - K·exp(-rT)·Φ(d2)` and `Φ(d1)` with
`d1 = (ln(S/K) + (r + sigma²/2)·T)/(sigma·√T)`, `d2 = d1 - sigma·√T`. -/
theorem C1_black_scholes_call_formula (S K T r sigma : ℝ)
    (hS : 0 < S) (hK : 0 < K) (hsig : 0 ≤ sigma) :
    (T ≤ 0 →
      black_scholes_call S K T r sigma =
        (max (S - K) 0, if S > K then 1 else 0) ∧
      ∀ r' sigma' : ℝ,
        black_scholes_call S K T r sigma = black_scholes_call S K T r' sigma') ∧
    (0 < T → sigma * Real.sqrt T ≠ 0 →
      black_scholes_call S K T r sigma =
        (S * normCDF ((Real.log (S / K) + (r + sigma ^ 2 / 2) * T) /
              (sigma * Real.sqrt T))
            - K * Real.exp (-r * T) *
              normCDF ((Real.log (S / K) + (r + sigma ^ 2 / 2) * T) /
                  (sigma * Real.sqrt T) - sigma * Real.sqrt T),
          normCDF ((Real.log (S / K) + (r + sigma ^ 2 / 2) * T) /
            (sigma * Real.sqrt T)))) := by
  constructor
  · intro hT
    constructor
    · simp [black_scholes_call, if_pos hT]
    · intro r' sigma'
      simp [black_scholes_call, if_pos hT]
  · intro hT _
    have h05 : r + sigma ^ 2 / 2 = r + 0.5 * sigma ^ 2 := by ring
    simp only [black_scholes_call, bs_d1, bs_d2, if_neg (not_le.mpr hT), h05]

/-- C1 witness: the spec's boundary test `price_call(110, 100, 0, r, σ)`
returns price `10` and hedge ratio `1`. -/
theorem C1_black_scholes_call_formula_witness :
    black_scholes_call 110 100 0 5 2 = (10, 1) := by
  have h :=
    ((C1_black_scholes_call_formula 110 100 0 5 2 (by norm_num) (by norm_num)
      (by norm_num)).1 le_rfl).1
  rw [h]
  norm_num

/-- C4 counterexample: on the empty series, `normalize_price_series` does
not fail with the spec's distinguished `EmptyInputError` (it raises a
pandas `IndexError` from `iloc[0]`). -/
theorem C4_empty_counterexample :
    normalize_price_series ⟨[], []⟩ ≠ .error .emptyInputError ∧
      normalize_price_series ⟨[], []⟩ = .error .indexError := by
  constructor
  · simp only [normalize_price_series]
    exact fun h => by cases h
  · rfl

/-- C4 (amended): on every zero-length input series the normalization
variant fails synchronously, returning no value, with the (undistinguished)
`IndexError` raised by positional indexing on an empty series. -/
theorem C4_empty_raises_IndexError (idx : List ℝ) :
    normalize_price_series ⟨idx, []⟩ = .error .indexError := rfl

/-- C7: at every step `i > 0` with `i % hedge_every ≠ 0`, the loop body of
`simulate_delta_hedging` leaves cash and shares exactly unchanged (no trade,
no cost), while the quote at that step is still computed and used for the
reported hedge-ratio sample and the mark-to-market value; the unchanged
ledger is what the rest of the walk continues from. -/
theorem C7_no_trade_frame (K r sigma c : ℝ) (hedgeEvery : ℕ)
    (path : List ℝ) (dt : ℝ) (i : ℕ) (rest : List ℕ) (st : Ledger)
    (hi : i ≠ 0) (hmod : i % hedgeEvery ≠ 0) :
    hedgeStep K r sigma c hedgeEvery (1 - i * dt) (path.getD i 0) i st =
      (st,
        st.shares * path.getD i 0 + st.cash
          - (black_scholes_call (path.getD i 0) K (1 - i * dt) r sigma).1,
        (black_scholes_call (path.getD i 0) K (1 - i * dt) r sigma).2) ∧
    hedgeRun K r sigma c hedgeEvery path dt (i :: rest) st =
      ((st.shares * path.getD i 0 + st.cash
          - (black_scholes_call (path.getD i 0) K (1 - i * dt) r sigma).1)
          :: (hedgeRun K r sigma c hedgeEvery path dt rest st).1,
        (black_scholes_call (path.getD i 0) K (1 - i * dt) r sigma).2
          :: (hedgeRun K r sigma c hedgeEvery path dt rest st).2) := by
  have hstep :
      hedgeStep K r sigma c hedgeEvery (1 - i * dt) (path.getD i 0) i st =
        (st,
          st.shares * path.getD i 0 + st.cash
            - (black_scholes_call (path.getD i 0) K (1 - i * dt) r sigma).1,
          (black_scholes_call (path.getD i 0) K (1 - i * dt) r sigma).2) := by
    simp [hedgeStep, hi, hmod]
  refine ⟨hstep, ?_⟩
  simp only [hedgeRun]
  rw [hstep]

/-- C7 witness: step `1` with the default `hedge_every = 5` is a no-trade
step for a concrete ledger and path. -/
theorem C7_no_trade_frame_witness :
    (1 : ℕ) ≠ 0 ∧ 1 % 5 ≠ 0 ∧
      hedgeRun 100 0 1 1 5 [1, 2] 1 [1] ⟨3, 4⟩ =
        ((4 * ([1, 2].getD 1 0) + 3
            - (black_scholes_call ([1, 2].getD 1 0) 100 (1 - 1 * 1) 0 1).1)
            :: (hedgeRun 100 0 1 1 5 [1, 2] 1 [] ⟨3, 4⟩).1,
          (black_scholes_call ([1, 2].getD 1 0) 100 (1 - 1 * 1) 0 1).2
            :: (hedgeRun 100 0 1 1 5 [1, 2] 1 [] ⟨3, 4⟩).2) := by
  refine ⟨by decide, by decide, ?_⟩
  have h :=
    (C7_no_trade_frame 100 0 1 1 5 [1, 2] 1 1 [] ⟨3, 4⟩ (by decide)
      (by decide)).2
  simpa using h

/-- C8: for `S, K > 0` and any `r`, when `sigma = 0` and `T > 0` the pricer
does not take its only guard (the `T ≤ 0` branch) and evaluates the `d1`/`d2`
formula whose denominator `sigma * sqrt T` is exactly zero: no other special
case prevents the division by zero. -/
theorem C8_sigma_zero_reaches_zero_denominator (S K T r : ℝ)
    (hS : 0 < S) (hK : 0 < K) (hT : 0 < T) :
    ¬ T ≤ 0 ∧ (0 : ℝ) * Real.sqrt T = 0 ∧
      black_scholes_call S K T r 0 =
        (S * normCDF ((Real.log (S / K) + (r + 0.5 * 0 ^ 2) * T) /
              (0 * Real.sqrt T))
            - K * Real.exp (-r * T) *
              normCDF ((Real.log (S / K) + (r + 0.5 * 0 ^ 2) * T) /
                  (0 * Real.sqrt T) - 0 * Real.sqrt T),
          normCDF ((Real.log (S / K) + (r + 0.5 * 0 ^ 2) * T) /
            (0 * Real.sqrt T))) := by
  refine ⟨not_le.mpr hT, zero_mul _, ?_⟩
  simp only [black_scholes_call, bs_d1, bs_d2, if_neg (not_le.mpr hT)]

/-- C8 witness: concrete instance at `S = 1`, `K = 1`, `T = 1`, `r = 0`. -/
theorem C8_sigma_zero_reaches_zero_denominator_witness :
    ¬ (1 : ℝ) ≤ 0 ∧ (0 : ℝ) * Real.sqrt 1 = 0 ∧
      black_scholes_call 1 1 1 0 0 =
        (1 * normCDF ((Real.log (1 / 1) + (0 + 0.5 * 0 ^ 2) * 1) /
              (0 * Real.sqrt 1))
            - 1 * Real.exp (-0 * 1) *
              normCDF ((Real.log (1 / 1) + (0 + 0.5 * 0 ^ 2) * 1) /
                  (0 * Real.sqrt 1) - 0 * Real.sqrt 1),
          normCDF ((Real.log (1 / 1) + (0 + 0.5 * 0 ^ 2) * 1) /
            (0 * Real.sqrt 1))) :=
  C8_sigma_zero_reaches_zero_denominator 1 1 1 0 (by norm_num) (by norm_num)
    (by norm_num)

/-- C10: `simulate_delta_hedging` divides by `steps = len(path) - 1` before
any step is processed: a one-sample path raises `ZeroDivisionError` there,
while any path with at least two samples has `steps ≠ 0` (so `dt` is
well-defined) and the walk returns a result. -/
theorem C10_requires_two_samples (K r sigma : ℝ) (hedgeEvery : ℕ) (c : ℝ) :
    (∀ x : ℝ,
      simulate_delta_hedging [x] K r sigma hedgeEvery c =
        .error .zeroDivisionError) ∧
    (∀ path : List ℝ, 2 ≤ path.length →
      ((path.length : ℤ) - 1 ≠ 0) ∧
      ∃ res, simulate_delta_hedging path K r sigma hedgeEvery c = .ok res) := by
  constructor
  · intro x
    simp [simulate_delta_hedging]
  · intro path hlen
    have hne : (path.length : ℤ) - 1 ≠ 0 := by
      have : (2 : ℤ) ≤ (path.length : ℤ) := by exact_mod_cast hlen
      omega
    refine ⟨hne, ?_⟩
    simp only [simulate_delta_hedging]
    rw [if_neg hne]
    exact ⟨_, rfl⟩

/-- C10 witness: a concrete two-sample path is accepted. -/
theorem C10_requires_two_samples_witness :
    2 ≤ ([1, 2] : List ℝ).length ∧
      ((([1, 2] : List ℝ).length : ℤ) - 1 ≠ 0) ∧
      ∃ res, simulate_delta_hedging [1, 2] 100 0 1 5 (1 / 1000) = .ok res :=
  ⟨by norm_num,
    (C10_requires_two_samples 100 0 1 5 (1 / 1000)).2 [1, 2] (by norm_num)⟩

/-- C2: for any path starting at `S0` (length ≥ 2) and any parameters, the
step-0 transition quotes at `(S0, K, T_remaining = 1, r, sigma)`, sets
`cash = price - delta·S0 - c·|delta·S0|` and `shares = delta`, and the first
reported mark-to-market value is exactly `-(c·|delta·S0|)`. -/
theorem C2_step0_mark_to_market (S0 r1 : ℝ) (rest : List ℝ)
    (K r sigma c : ℝ) (hedgeEvery : ℕ) (hS0 : 0 < S0) (hK : 0 < K) :
    ∀ res : List ℝ × List ℝ,
      simulate_delta_hedging (S0 :: r1 :: rest) K r sigma hedgeEvery c =
        .ok res →
      res.1.head? = some (-(c * |(black_scholes_call S0 K 1 r sigma).2 * S0|)) ∧
      res.2.head? = some ((black_scholes_call S0 K 1 r sigma).2) := by
  intro res h
  have hne : (((S0 :: r1 :: rest).length : ℤ) - 1) ≠ 0 := by
    simp only [List.length_cons]
    push_cast
    omega
  have hto : ((((S0 :: r1 :: rest).length : ℤ) - 1) + 1).toNat =
      rest.length + 1 + 1 := by
    simp only [List.length_cons, sub_add_cancel]
    push_cast
    omega
  simp only [simulate_delta_hedging] at h
  rw [if_neg hne, hto, List.range_succ_eq_map] at h
  simp only [Except.ok.injEq] at h
  subst h
  simp only [hedgeRun, hedgeStep, List.getD_cons_zero, Nat.cast_zero, zero_mul,
    sub_zero, ite_true, eq_self_iff_true, List.head?_cons, Option.some.injEq]
  refine ⟨by ring, by simp⟩

/-- C2 witness: concrete two-sample path `[1, 2]`. -/
theorem C2_step0_mark_to_market_witness :
    ∃ res : List ℝ × List ℝ,
      simulate_delta_hedging [1, 2] 1 0 1 5 (1 / 100) = .ok res ∧
      res.1.head? =
        some (-(1 / 100 * |(black_scholes_call 1 1 1 0 1).2 * 1|)) ∧
      res.2.head? = some ((black_scholes_call 1 1 1 0 1).2) := by
  have hok : ∃ res, simulate_delta_hedging ([1, 2] : List ℝ) 1 0 1 5 (1 / 100) =
      .ok res := by
    simp only [simulate_delta_hedging]
    rw [if_neg (by norm_num)]
    exact ⟨_, rfl⟩
  obtain ⟨res, hres⟩ := hok
  exact ⟨res, hres,
    C2_step0_mark_to_market 1 2 [] 1 0 1 (1 / 100) 5 (by norm_num) (by norm_num)
      res hres⟩

/-- C9: applying `normalize_price_series` to its own output (for a strictly
positive input of length ≥ 2) returns the output unchanged: the first value
is `100`, so the second rescale is by `100 / 100 = 1`, and the linearly
remapped time index `linspace 0 1 n` is reproduced as-is. -/
theorem C9_normalize_idempotent (s t : PriceSeries)
    (hlen : 2 ≤ s.values.length) (hpos : ∀ v ∈ s.values, 0 < v)
    (ht : normalize_price_series s = .ok t) :
    normalize_price_series t = .ok t := by
  obtain ⟨tidx, tvals⟩ := t
  rcases hv : s.values with _ | ⟨v0, vs⟩
  · rw [hv] at hlen
    simp at hlen
  · have hv0 : 0 < v0 := hpos v0 (by rw [hv]; exact List.mem_cons_self _ _)
    have h100 : v0 / v0 * 100 = 100 := by
      rw [div_self hv0.ne', one_mul]
    rw [normalize_price_series, hv] at ht
    simp only [Except.ok.injEq, PriceSeries.mk.injEq, List.map_cons, h100,
      List.length_cons, hv] at ht
    obtain ⟨h1, h2⟩ := ht
    subst h1
    subst h2
    rw [normalize_price_series]
    have hid : ∀ v : ℝ, v / 100 * 100 = v := fun v => by
      field_simp
    simp only [List.length_cons, List.length_map, Except.ok.injEq,
      PriceSeries.mk.injEq, List.map_cons, hid, List.map_map,
      Function.comp_def, true_and, and_true, eq_self_iff_true]

/-- C9 witness: the concrete series with values `[2, 4]` normalizes to a
series that is a fixed point of normalization. -/
theorem C9_normalize_idempotent_witness :
    2 ≤ ([2, 4] : List ℝ).length ∧
      (∀ v ∈ ([2, 4] : List ℝ), 0 < v) ∧
      ∃ t, normalize_price_series ⟨[0, 1], [2, 4]⟩ = .ok t ∧
        normalize_price_series t = .ok t := by
  refine ⟨by norm_num, ?_, ?_⟩
  · intro v hv
    simp only [List.mem_cons, List.not_mem_nil, or_false] at hv
    rcases hv with rfl | rfl <;> norm_num
  · refine ⟨_, rfl, ?_⟩
    refine C9_normalize_idempotent ⟨[0, 1], [2, 4]⟩ _ (by norm_num) ?_ rfl
    intro v hv
    simp only [List.mem_cons, List.not_mem_nil, or_false] at hv
    rcases hv with rfl | rfl <;> norm_num

/-- C3: evaluating `simulate_gbm` at the failing seed `0`: the Python guard
`if seed:` treats the supplied seed `0` as falsy and does not re-seed the
generator, so two invocations with identical parameters and the same
supplied seed `0` but different ambient generator states produce different
paths, contradicting the claimed reproducibility for every supplied seed. -/
theorem C3_seed_zero_not_reproducible :
    simulate_gbm 1 0 1 1 1 (some 0) ⟨fun _ => 0⟩ ≠
      simulate_gbm 1 0 1 1 1 (some 0) ⟨fun _ => 1⟩ := by
  intro h
  simp only [simulate_gbm, ne_eq, not_true_eq_false, if_false,
    PriceSeries.mk.injEq] at h
  have hr : List.range (1 + 1) = [0, 1] := rfl
  rw [hr] at h
  have h2 := congrArg (fun l => l.getD 1 0) h.2
  simp only [List.map_cons, List.map_nil, List.getD_cons_succ,
    List.getD_cons_zero, gbmPrice] at h2
  norm_num [Real.sqrt_one, Real.exp_eq_exp] at h2

/-! ### Analysis of the Black-Scholes price in the spot variable -/

/-- For positive time to expiry the pricer evaluates its formula branch. -/
lemma bs_price_formula (K T r sigma : ℝ) (hT : 0 < T) :
    (fun s => (black_scholes_call s K T r sigma).1)
      = fun s => s * normCDF (bs_d1 s K T r sigma)
          - K * Real.exp (-r * T) * normCDF (bs_d2 s K T r sigma) := by
  funext s
  simp [black_scholes_call, not_le.mpr hT]

lemma hasDerivAt_bs_d1 (K T r sigma : ℝ) (hK : 0 < K) {S : ℝ} (hS : 0 < S) :
    HasDerivAt (fun s => bs_d1 s K T r sigma)
      (1 / (S * (sigma * Real.sqrt T))) S := by
  have h1 : HasDerivAt (fun s : ℝ => s / K) (1 / K) S := by
    simpa using (hasDerivAt_id S).div_const K
  have h2 : HasDerivAt Real.log (S / K)⁻¹ (S / K) :=
    Real.hasDerivAt_log (div_ne_zero hS.ne' hK.ne')
  have h3 : HasDerivAt (fun s : ℝ => Real.log (s / K)) ((S / K)⁻¹ * (1 / K)) S :=
    h2.comp S h1
  have h4 : (S / K)⁻¹ * (1 / K) = 1 / S := by
    field_simp
    ring
  rw [h4] at h3
  have h5 := (h3.add_const ((r + 0.5 * sigma ^ 2) * T)).div_const
    (sigma * Real.sqrt T)
  have h6 : 1 / S / (sigma * Real.sqrt T) = 1 / (S * (sigma * Real.sqrt T)) :=
    div_div 1 S (sigma * Real.sqrt T)
  rw [h6] at h5
  simpa only [bs_d1] using h5

/-- The identity `K·e^{-rT}·φ(d2) = S·φ(d1)` behind the delta formula. -/
lemma bs_pdf_identity (S K T r sigma : ℝ) (hS : 0 < S) (hK : 0 < K)
    (hT : 0 < T) (hsig : 0 < sigma) :
    K * Real.exp (-r * T) *
        ProbabilityTheory.gaussianPDFReal 0 1 (bs_d2 S K T r sigma)
      = S * ProbabilityTheory.gaussianPDFReal 0 1 (bs_d1 S K T r sigma) := by
  have ha : sigma * Real.sqrt T ≠ 0 :=
    (mul_pos hsig (Real.sqrt_pos.mpr hT)).ne'
  have hd1a : bs_d1 S K T r sigma * (sigma * Real.sqrt T)
      = Real.log (S / K) + (r + 0.5 * sigma ^ 2) * T := div_mul_cancel₀ _ ha
  have ha2 : (sigma * Real.sqrt T) ^ 2 = sigma ^ 2 * T := by
    rw [mul_pow, Real.sq_sqrt hT.le]
  have hexp : Real.exp (-(bs_d2 S K T r sigma) ^ 2 / 2)
      = Real.exp (-(bs_d1 S K T r sigma) ^ 2 / 2)
          * (S / K * Real.exp (r * T)) := by
    rw [← Real.exp_log (div_pos hS hK), ← Real.exp_add, ← Real.exp_add]
    congr 1
    have hd2 : bs_d2 S K T r sigma
        = bs_d1 S K T r sigma - sigma * Real.sqrt T := rfl
    rw [hd2]
    have hsq : -(bs_d1 S K T r sigma - sigma * Real.sqrt T) ^ 2 / 2
        = -(bs_d1 S K T r sigma) ^ 2 / 2
            + bs_d1 S K T r sigma * (sigma * Real.sqrt T)
            - (sigma * Real.sqrt T) ^ 2 / 2 := by
      ring
    rw [hsq, hd1a, ha2]
    ring
  simp only [ProbabilityTheory.gaussianPDFReal, NNReal.coe_one, mul_one,
    sub_zero]
  rw [hexp]
  have hrT : -r * T = -(r * T) := by ring
  rw [hrT, Real.exp_neg]
  field_simp
  ring

/-- For `T, sigma > 0` the call price has derivative `Φ(d1)` in the spot. -/
lemma hasDerivAt_bs_price (K T r sigma : ℝ) (hK : 0 < K) (hT : 0 < T)
    (hsig : 0 < sigma) {S : ℝ} (hS : 0 < S) :
    HasDerivAt (fun s => (black_scholes_call s K T r sigma).1)
      (normCDF (bs_d1 S K T r sigma)) S := by
  rw [bs_price_formula K T r sigma hT]
  have hd1 := hasDerivAt_bs_d1 K T r sigma hK hS
  have hphi1 : HasDerivAt (fun s => normCDF (bs_d1 s K T r sigma))
      (ProbabilityTheory.gaussianPDFReal 0 1 (bs_d1 S K T r sigma)
        * (1 / (S * (sigma * Real.sqrt T)))) S :=
    (hasDerivAt_normCDF _).comp S hd1
  have hd2 : HasDerivAt (fun s => bs_d2 s K T r sigma)
      (1 / (S * (sigma * Real.sqrt T))) S := by
    simp only [bs_d2]
    exact hd1.sub_const _
  have hphi2 : HasDerivAt (fun s => normCDF (bs_d2 s K T r sigma))
      (ProbabilityTheory.gaussianPDFReal 0 1 (bs_d2 S K T r sigma)
        * (1 / (S * (sigma * Real.sqrt T)))) S :=
    (hasDerivAt_normCDF _).comp S hd2
  have hterm1 : HasDerivAt
      (fun s => s * normCDF (bs_d1 s K T r sigma))
      (1 * normCDF (bs_d1 S K T r sigma)
        + S * (ProbabilityTheory.gaussianPDFReal 0 1 (bs_d1 S K T r sigma)
            * (1 / (S * (sigma * Real.sqrt T))))) S :=
    (hasDerivAt_id S).mul hphi1
  have hterm2 : HasDerivAt
      (fun s => K * Real.exp (-r * T) * normCDF (bs_d2 s K T r sigma))
      (K * Real.exp (-r * T)
        * (ProbabilityTheory.gaussianPDFReal 0 1 (bs_d2 S K T r sigma)
            * (1 / (S * (sigma * Real.sqrt T))))) S :=
    hphi2.const_mul _
  have htotal := hterm1.sub hterm2
  have heq : 1 * normCDF (bs_d1 S K T r sigma)
        + S * (ProbabilityTheory.gaussianPDFReal 0 1 (bs_d1 S K T r sigma)
            * (1 / (S * (sigma * Real.sqrt T))))
        - K * Real.exp (-r * T)
          * (ProbabilityTheory.gaussianPDFReal 0 1 (bs_d2 S K T r sigma)
              * (1 / (S * (sigma * Real.sqrt T))))
      = normCDF (bs_d1 S K T r sigma) := by
    have hident := bs_pdf_identity S K T r sigma hS hK hT hsig
    linear_combination (-(1 / (S * (sigma * Real.sqrt T)))) * hident
  rwa [heq] at htotal

/-- For `T, sigma > 0` the call price is monotone in the spot on `(0, ∞)`. -/
lemma bs_price_monotoneOn (K T r sigma : ℝ) (hK : 0 < K) (hT : 0 < T)
    (hsig : 0 < sigma) :
    MonotoneOn (fun s => (black_scholes_call s K T r sigma).1) (Ioi (0:ℝ)) := by
  have hderiv : ∀ x ∈ Ioi (0:ℝ),
      HasDerivAt (fun s => (black_scholes_call s K T r sigma).1)
        (normCDF (bs_d1 x K T r sigma)) x :=
    fun x hx => hasDerivAt_bs_price K T r sigma hK hT hsig hx
  refine monotoneOn_of_deriv_nonneg (convex_Ioi 0) ?_ ?_ ?_
  · exact fun x hx => ((hderiv x hx).continuousAt).continuousWithinAt
  · rw [interior_Ioi]
    exact fun x hx => ((hderiv x hx).differentiableAt).differentiableWithinAt
  · rw [interior_Ioi]
    intro x hx
    rw [(hderiv x hx).deriv]
    exact normCDF_nonneg _

/-- As the spot tends to `0⁺`, `d2` tends to `-∞`. -/
lemma tendsto_bs_d2_atBot (K T r sigma : ℝ) (hK : 0 < K) (hT : 0 < T)
    (hsig : 0 < sigma) :
    Tendsto (fun s => bs_d2 s K T r sigma) (𝓝[>] (0:ℝ)) atBot := by
  have ha : (0:ℝ) < sigma * Real.sqrt T :=
    mul_pos hsig (Real.sqrt_pos.mpr hT)
  have hdiv : Tendsto (fun s : ℝ => s / K) (𝓝[>] 0) (𝓝[>] 0) := by
    rw [tendsto_nhdsWithin_iff]
    constructor
    · have hc : Tendsto (fun s : ℝ => s / K) (𝓝 0) (𝓝 (0 / K)) :=
        (continuous_id.div_const K).tendsto 0
      rw [zero_div] at hc
      exact hc.mono_left nhdsWithin_le_nhds
    · exact eventually_mem_nhdsWithin.mono fun s hs => div_pos hs hK
  have hlog : Tendsto (fun s : ℝ => Real.log (s / K)) (𝓝[>] 0) atBot :=
    Real.tendsto_log_nhdsWithin_zero_right.comp hdiv
  have h1 : Tendsto
      (fun s : ℝ => Real.log (s / K) + (r + 0.5 * sigma ^ 2) * T)
      (𝓝[>] 0) atBot :=
    tendsto_atBot_add_const_right _ _ hlog
  have h2 : Tendsto (fun s : ℝ =>
      (Real.log (s / K) + (r + 0.5 * sigma ^ 2) * T) / (sigma * Real.sqrt T))
      (𝓝[>] 0) atBot :=
    h1.atBot_div_const ha
  have h3 := tendsto_atBot_add_const_right _ (-(sigma * Real.sqrt T)) h2
  simp only [bs_d2, bs_d1, sub_eq_add_neg]
  exact h3

/-- As the spot tends to `0⁺`, the call price tends to `0`. -/
lemma tendsto_bs_price_zero (K T r sigma : ℝ) (hK : 0 < K) (hT : 0 < T)
    (hsig : 0 < sigma) :
    Tendsto (fun s => (black_scholes_call s K T r sigma).1)
      (𝓝[>] (0:ℝ)) (𝓝 0) := by
  rw [bs_price_formula K T r sigma hT]
  have t1 : Tendsto (fun s : ℝ => s * normCDF (bs_d1 s K T r sigma))
      (𝓝[>] 0) (𝓝 0) := by
    have hid : Tendsto (fun s : ℝ => s) (𝓝[>] (0:ℝ)) (𝓝 0) :=
      tendsto_id.mono_left nhdsWithin_le_nhds
    refine squeeze_zero'
      (eventually_mem_nhdsWithin.mono fun s hs =>
        mul_nonneg (le_of_lt hs) (normCDF_nonneg _))
      (eventually_mem_nhdsWithin.mono fun s hs =>
        mul_le_of_le_one_right (le_of_lt hs) (normCDF_le_one _))
      hid
  have t2 : Tendsto
      (fun s : ℝ => K * Real.exp (-r * T) * normCDF (bs_d2 s K T r sigma))
      (𝓝[>] 0) (𝓝 (K * Real.exp (-r * T) * 0)) :=
    (normCDF_tendsto_atBot.comp
      (tendsto_bs_d2_atBot K T r sigma hK hT hsig)).const_mul _
  have := t1.sub t2
  simpa using this

/-- For `S, K, T, sigma > 0` the call price is nonnegative. -/
lemma bs_price_nonneg_of_pos (S K T r sigma : ℝ) (hS : 0 < S) (hK : 0 < K)
    (hT : 0 < T) (hsig : 0 < sigma) :
    0 ≤ (black_scholes_call S K T r sigma).1 := by
  have hmono := bs_price_monotoneOn K T r sigma hK hT hsig
  have hlim := tendsto_bs_price_zero K T r sigma hK hT hsig
  have hev : ∀ᶠ s in 𝓝[>] (0:ℝ),
      (black_scholes_call s K T r sigma).1
        ≤ (black_scholes_call S K T r sigma).1 := by
    filter_upwards [Ioc_mem_nhdsWithin_Ioi ⟨le_refl (0:ℝ), hS⟩] with s hs
    exact hmono hs.1 (mem_Ioi.mpr hS) hs.2
  exact le_of_tendsto hlim hev

/-- Every delta emitted by the hedging loop is a quoted hedge ratio. -/
lemma hedgeRun_deltas_mem (K r sigma c : ℝ) (hedgeEvery : ℕ)
    (path : List ℝ) (dt : ℝ) :
    ∀ (idxs : List ℕ) (st : Ledger) (d : ℝ),
      d ∈ (hedgeRun K r sigma c hedgeEvery path dt idxs st).2 →
      0 ≤ d ∧ d ≤ 1 := by
  intro idxs
  induction idxs with
  | nil =>
      intro st d hd
      simp [hedgeRun] at hd
  | cons i rest ih =>
      intro st d hd
      simp only [hedgeRun, List.mem_cons] at hd
      rcases hd with rfl | hd
      · simpa only [hedgeStep] using
          bs_delta_mem_unitInterval (path.getD i 0) K (1 - i * dt) r sigma
      · exact ih _ _ hd

/-- C5: on its domain (`S, K > 0`, `sigma ≥ 0`, `T ≥ 0`, and `sigma > 0`
whenever `T > 0` so that the formula branch is defined), the quote satisfies
`price ≥ 0` and `hedge_ratio ∈ [0, 1]`; consequently every sample of the
hedge-ratio series emitted by `simulate_delta_hedging` over a strictly
positive path lies in `[0, 1]`. -/
theorem C5_quote_invariants :
    (∀ S K T r sigma : ℝ, 0 < S → 0 < K → 0 ≤ T → 0 ≤ sigma →
      (0 < T → 0 < sigma) →
      0 ≤ (black_scholes_call S K T r sigma).1 ∧
      0 ≤ (black_scholes_call S K T r sigma).2 ∧
      (black_scholes_call S K T r sigma).2 ≤ 1) ∧
    (∀ (path : List ℝ) (K r sigma : ℝ) (hedgeEvery : ℕ) (c : ℝ)
      (res : List ℝ × List ℝ), 0 < K → 0 < sigma → (∀ S ∈ path, 0 < S) →
      simulate_delta_hedging path K r sigma hedgeEvery c = .ok res →
      ∀ d ∈ res.2, 0 ≤ d ∧ d ≤ 1) := by
  constructor
  · intro S K T r sigma hS hK hT hsig hdef
    refine ⟨?_, bs_delta_mem_unitInterval S K T r sigma⟩
    rcases le_or_lt T 0 with hT0 | hT0
    · simp only [black_scholes_call, if_pos hT0]
      exact le_max_right _ _
    · exact bs_price_nonneg_of_pos S K T r sigma hS hK hT0 (hdef hT0)
  · intro path K r sigma hedgeEvery c res hK hsig hpos h
    simp only [simulate_delta_hedging] at h
    by_cases hc : ((path.length : ℤ) - 1) = 0
    · rw [if_pos hc] at h
      cases h
    · rw [if_neg hc] at h
      simp only [Except.ok.injEq] at h
      subst h
      exact fun d hd => hedgeRun_deltas_mem K r sigma c hedgeEvery path _ _ _ d hd

/-- C5 witness: boundary quote at `(110, 100, 0, 0, 0)` and the delta
series over the concrete path `[1, 1]`. -/
theorem C5_quote_invariants_witness :
    (0 ≤ (black_scholes_call 110 100 0 0 0).1 ∧
      0 ≤ (black_scholes_call 110 100 0 0 0).2 ∧
      (black_scholes_call 110 100 0 0 0).2 ≤ 1) ∧
    ∃ res : List ℝ × List ℝ,
      simulate_delta_hedging [1, 1] 1 0 1 5 (1 / 1000) = .ok res ∧
      ∀ d ∈ res.2, 0 ≤ d ∧ d ≤ 1 := by
  constructor
  · exact C5_quote_invariants.1 110 100 0 0 0 (by norm_num) (by norm_num)
      le_rfl le_rfl (fun h => absurd h (by norm_num))
  · have hok : ∃ res, simulate_delta_hedging ([1, 1] : List ℝ) 1 0 1 5
        (1 / 1000) = .ok res := by
      simp only [simulate_delta_hedging]
      rw [if_neg (by norm_num)]
      exact ⟨_, rfl⟩
    obtain ⟨res, hres⟩ := hok
    refine ⟨res, hres, C5_quote_invariants.2 [1, 1] 1 0 1 5 (1 / 1000) res
      (by norm_num) (by norm_num) ?_ hres⟩
    intro S hS
    simp only [List.mem_cons, List.not_mem_nil, or_false] at hS
    rcases hS with rfl | rfl <;> norm_num

/-- C6: for fixed `K > 0`, `T ≥ 0`, any `r`, `sigma ≥ 0` on which the
pricer is defined (`sigma > 0` when `T > 0`), both the price and the hedge
ratio returned by `black_scholes_call` are non-decreasing in the spot. -/
theorem C6_monotone_in_spot (K T r sigma S1 S2 : ℝ) (hK : 0 < K)
    (hT : 0 ≤ T) (hsig : 0 ≤ sigma) (hdef : 0 < T → 0 < sigma)
    (hS1 : 0 < S1) (h12 : S1 ≤ S2) :
    (black_scholes_call S1 K T r sigma).1
      ≤ (black_scholes_call S2 K T r sigma).1 ∧
    (black_scholes_call S1 K T r sigma).2
      ≤ (black_scholes_call S2 K T r sigma).2 := by
  rcases le_or_lt T 0 with hT0 | hT0
  · simp only [black_scholes_call, if_pos hT0]
    constructor
    · exact max_le_max (sub_le_sub_right h12 K) le_rfl
    · dsimp only
      split_ifs with h1 h2
      · exact le_rfl
      · exact absurd (lt_of_lt_of_le h1 h12) h2
      · norm_num
      · exact le_rfl
  · have hsig' := hdef hT0
    have hS2 : 0 < S2 := lt_of_lt_of_le hS1 h12
    constructor
    · exact bs_price_monotoneOn K T r sigma hK hT0 hsig'
        (mem_Ioi.mpr hS1) (mem_Ioi.mpr hS2) h12
    · have hd1 : bs_d1 S1 K T r sigma ≤ bs_d1 S2 K T r sigma := by
        unfold bs_d1
        have ha : (0:ℝ) < sigma * Real.sqrt T :=
          mul_pos hsig' (Real.sqrt_pos.mpr hT0)
        refine (div_le_div_right ha).mpr ?_
        refine add_le_add_right ?_ _
        exact Real.log_le_log (div_pos hS1 hK)
          ((div_le_div_right hK).mpr h12)
      simp only [black_scholes_call, if_neg (not_le.mpr hT0)]
      exact normCDF_mono hd1

/-- C6 witness: expiry boundary instance `K = 100`, `T = 0`, spots
`100 ≤ 110`. -/
theorem C6_monotone_in_spot_witness :
    (black_scholes_call 100 100 0 0 0).1
      ≤ (black_scholes_call 110 100 0 0 0).1 ∧
    (black_scholes_call 100 100 0 0 0).2
      ≤ (black_scholes_call 110 100 0 0 0).2 :=
  C6_monotone_in_spot 100 0 0 0 100 110 (by norm_num) le_rfl le_rfl
    (fun h => absurd h (by norm_num)) (by norm_num) (by norm_num)
